import Mathlib

/-
Verification of the two concurrency examples of this repository against
their design specification.

Part 1 (namespace RW) embeds readerWriter.c: a bounded circular buffer of
NUM_TOTAL_BUFFERS slots shared by one Writer and one Reader thread,
coordinated by two counting semaphores (emptyBuffers, fullBuffers).

Part 2 (namespace Sell) embeds sellTickets.c: a global ticket counter
protected by a binary semaphore, decremented by NUM_SELLERS seller threads
until exhausted.

Machine integers of the C sources are modelled as Int (C int) or Nat
(semaphore values, loop counters); the C truncating % on int is Int.tmod.
-/

namespace RW

/-- Embeds the constant NUM_TOTAL_BUFFERS of readerWriter.c (line 16). -/
def NUM_TOTAL_BUFFERS : Nat := 5

/-- Embeds the constant DATA_LENGTH of readerWriter.c (line 17). -/
def DATA_LENGTH : Nat := 20

/-- Semaphore-level state of the channel at quiescent points, together with
the number of completed producer (Writer) and consumer (Reader) loop
iterations.  emptyCount and fullCount are the values of the semaphores
emptyBuffers and fullBuffers of readerWriter.c. -/
structure ChState where
  emptyCount : Nat
  fullCount : Nat
  puts : Nat
  takes : Nat
  deriving DecidableEq, Repr

/-- Initial state: sem_init(&emptyBuffers, 0, NUM_TOTAL_BUFFERS) and
sem_init(&fullBuffers, 0, 0) in main (lines 57-58), before either thread
has run an iteration. -/
def chInit : ChState := ⟨NUM_TOTAL_BUFFERS, 0, 0, 0⟩

/-- One complete loop iteration of either thread, viewed at quiescent points.
A put is one Writer iteration (lines 113-120): it can only complete once
sem_wait(pEmptyBuffers) succeeds (emptyCount positive), consumes one empty
permit and posts one full permit; the loop runs while i < DATA_LENGTH.
A take is one Reader iteration (lines 132-139), symmetrically. -/
inductive ChStep : ChState → ChState → Prop
  | put (s : ChState) (hw : s.puts < DATA_LENGTH) (he : 0 < s.emptyCount) :
      ChStep s ⟨s.emptyCount - 1, s.fullCount + 1, s.puts + 1, s.takes⟩
  | take (s : ChState) (hr : s.takes < DATA_LENGTH) (hf : 0 < s.fullCount) :
      ChStep s ⟨s.emptyCount + 1, s.fullCount - 1, s.puts, s.takes + 1⟩

/-- States reachable from the freshly constructed channel by any
interleaving of complete Writer and Reader iterations. -/
def ChReachable (s : ChState) : Prop := Relation.ReflTransGen ChStep chInit s

/-- Writer cursor trace (lines 108, 116-118): writePt is NOT initialised by
the C source, so its first value wp0 is an arbitrary int; after each write
it advances by (writePt + 1) % NUM_TOTAL_BUFFERS with C truncating %.
The list collects the buffer index used by each successive write. -/
def writerLoop : Int → Nat → List Int
  | _, 0 => []
  | wp, n + 1 => wp :: writerLoop ((wp + 1).tmod (NUM_TOTAL_BUFFERS : Int)) n

/-- Buffer indices used by the DATA_LENGTH writes of the Writer thread,
as a function of the initial (indeterminate) value of writePt. -/
def writerIndices (wp0 : Int) : List Int := writerLoop wp0 DATA_LENGTH

/-- Reader cursor trace (lines 127, 134-136): readPt starts at 0 and
advances by (readPt + 1) % NUM_TOTAL_BUFFERS after each read. -/
def readerLoop : Nat → Nat → List Nat
  | _, 0 => []
  | rp, n + 1 => rp :: readerLoop ((rp + 1) % NUM_TOTAL_BUFFERS) n

/-- Buffer indices used by the DATA_LENGTH reads of the Reader thread. -/
def readerIndices : List Nat := readerLoop 0 DATA_LENGTH

/-- Strict put/take alternation run of the two loops: one legal interleaving
of readerWriter.c (each write is immediately followed by the next read).
buf is the shared 5-slot buffer (its initial contents are indeterminate in
the C source, the caller passes them in), wp the Writer cursor (initial
value indeterminate in the C source), rp the Reader cursor (0 at entry).
Returns the sequence of values the Reader observes.  Cursor values are kept
in the in-range regime here; out-of-range initial cursors are treated by
the index-trace model above. -/
def altRun : List Char → Int → Nat → List Char → List Char
  | _, _, _, [] => []
  | buf, wp, rp, v :: vs =>
      let buf2 := buf.set wp.toNat v
      buf2.getD rp '?' ::
        altRun buf2 ((wp + 1).tmod (NUM_TOTAL_BUFFERS : Int))
          ((rp + 1) % NUM_TOTAL_BUFFERS) vs

/-- Embeds PrepareData of readerWriter.c (lines 151-157): the produced item
is (char)(65 + (result % 25)) where result is the output of random_r. -/
def prepareData (result : Int) : Int := 65 + result.tmod 25

end RW

namespace Sell

/-- Embeds the constant NUM_TICKETS of sellTickets.c (line 22). -/
def NUM_TICKETS : Nat := 35

/-- Embeds the constant NUM_SELLERS of sellTickets.c (line 23). -/
def NUM_SELLERS : Nat := 4

/-- Control location of one seller thread inside its while loop
(SellTickets, lines 112-134).  outside: before sem_wait (includes the
random customer delay, which touches no shared state); checking: holds
ticketsLock, about to test numTickets == 0; decrementing: holds the lock
and has seen numTickets nonzero, about to run numTickets-- and
numSoldByThisThread++; releasing: about to sem_post; exited: loop left
after done was set. -/
inductive PC
  | outside
  | checking
  | decrementing
  | releasing
  | exited
  deriving DecidableEq, Repr

/-- Per-thread state of one seller: control location, the local done flag
and the local numSoldByThisThread counter (both line 108-109). -/
structure Worker where
  pc : PC
  done : Bool
  sold : Int
  deriving DecidableEq, Repr

/-- Shared-memory configuration of sellTickets.c: the global numTickets
(line 38), the binary semaphore ticketsLock (line 39, value 1 modelled as
lock = none, value 0 as lock = some holder), and the W seller threads. -/
structure Cfg (W : Nat) where
  numTickets : Int
  lock : Option (Fin W)
  workers : Fin W → Worker

/-- Transition labels: which seller does which micro-step. -/
inductive Event (W : Nat)
  | acquire (i : Fin W)
  | checkZero (i : Fin W)
  | checkPos (i : Fin W)
  | decr (i : Fin W)
  | release (i : Fin W)

/-- Interleaving semantics of SellTickets (lines 112-134), one constructor
per micro-step of the critical section.  acquire is sem_wait(&ticketsLock)
(only succeeds while no thread holds the lock); checkZero/checkPos is the
test numTickets == 0 (lines 125-127) by the lock holder; decr is
numTickets--; numSoldByThisThread++ (lines 128-129); release is
sem_post(&ticketsLock) (line 133), after which the thread loops again or,
when done was set, leaves the loop for good. -/
inductive Step {W : Nat} : Event W → Cfg W → Cfg W → Prop
  | acquire (c : Cfg W) (i : Fin W)
      (hpc : (c.workers i).pc = PC.outside) (hdone : (c.workers i).done = false)
      (hlock : c.lock = none) :
      Step (Event.acquire i) c
        { c with lock := some i,
                 workers := Function.update c.workers i
                   { c.workers i with pc := PC.checking } }
  | checkZero (c : Cfg W) (i : Fin W)
      (hpc : (c.workers i).pc = PC.checking) (hlock : c.lock = some i)
      (hz : c.numTickets = 0) :
      Step (Event.checkZero i) c
        { c with workers := Function.update c.workers i
                   { c.workers i with pc := PC.releasing, done := true } }
  | checkPos (c : Cfg W) (i : Fin W)
      (hpc : (c.workers i).pc = PC.checking) (hlock : c.lock = some i)
      (hz : c.numTickets ≠ 0) :
      Step (Event.checkPos i) c
        { c with workers := Function.update c.workers i
                   { c.workers i with pc := PC.decrementing } }
  | decr (c : Cfg W) (i : Fin W)
      (hpc : (c.workers i).pc = PC.decrementing) (hlock : c.lock = some i) :
      Step (Event.decr i) c
        { c with numTickets := c.numTickets - 1,
                 workers := Function.update c.workers i
                   { c.workers i with pc := PC.releasing,
                                      sold := (c.workers i).sold + 1 } }
  | release (c : Cfg W) (i : Fin W)
      (hpc : (c.workers i).pc = PC.releasing) (hlock : c.lock = some i) :
      Step (Event.release i) c
        { c with lock := none,
                 workers := Function.update c.workers i
                   { c.workers i with
                     pc := if (c.workers i).done then PC.exited else PC.outside } }

/-- Some seller makes some micro-step. -/
def TStep {W : Nat} (c c' : Cfg W) : Prop := ∃ e, Step e c c'

/-- Initial configuration: numTickets = T (line 38), ticketsLock unlocked
(sem_init value 1, line 63), every seller before its first iteration with
done = false and numSoldByThisThread = 0. -/
def sellInit (T W : Nat) : Cfg W :=
  ⟨(T : Int), none, fun _ => ⟨PC.outside, false, 0⟩⟩

/-- Configurations reachable from the initial one under any interleaving. -/
def SellReachable (T W : Nat) (c : Cfg W) : Prop :=
  Relation.ReflTransGen TStep (sellInit T W) c

/-- Total number of successful decrements recorded across all sellers. -/
def soldSum {W : Nat} (c : Cfg W) : Int :=
  Finset.univ.sum fun i => (c.workers i).sold

/-- A seller is inside the critical section (holds ticketsLock). -/
def inCS (w : Worker) : Prop :=
  w.pc = PC.checking ∨ w.pc = PC.decrementing ∨ w.pc = PC.releasing

/-- Inductive invariant of the seller system. -/
structure Inv {W : Nat} (T : Nat) (c : Cfg W) : Prop where
  nonneg : 0 ≤ c.numTickets
  conserve : c.numTickets + soldSum c = (T : Int)
  sold_nonneg : ∀ i, 0 ≤ (c.workers i).sold
  mutex : ∀ i, inCS (c.workers i) → c.lock = some i
  decr_pos : ∀ i, (c.workers i).pc = PC.decrementing → 0 < c.numTickets
  done_zero : ∀ i, (c.workers i).done = true → c.numTickets = 0
  exited_done : ∀ i, (c.workers i).pc = PC.exited → (c.workers i).done = true

/-- All sellers between iterations, none done, given sold counts, n tickets
remaining. -/
def allOut {W : Nat} (n : Int) (s : Fin W → Int) : Cfg W :=
  ⟨n, none, fun i => ⟨PC.outside, false, s i⟩⟩

/-- All sellers terminated with the given sold counts and no tickets
remaining. -/
def allExit {W : Nat} (s : Fin W → Int) : Cfg W :=
  ⟨0, none, fun i => ⟨PC.exited, true, s i⟩⟩

/-- Sellers with index below k terminated, the rest between iterations,
no tickets remaining. -/
def exitUpTo {W : Nat} (s : Fin W → Int) (k : Nat) : Cfg W :=
  ⟨0, none, fun i =>
    if i.val < k then ⟨PC.exited, true, s i⟩ else ⟨PC.outside, false, s i⟩⟩

/-- Seller index 0, used by the concrete schedules below. -/
def i0 : Fin NUM_SELLERS := ⟨0, by norm_num [NUM_SELLERS]⟩

/-- Sold counts after seller 0 alone sells all 35 tickets. -/
def soldAll : Fin NUM_SELLERS → Int :=
  Function.update (fun _ => 0) i0 35

/-- One-seller configuration holding the lock at the zero check with no
tickets left. -/
def c2z : Cfg 1 := ⟨0, some 0, fun _ => ⟨PC.checking, false, 0⟩⟩

/-- Configuration c2z after the zero branch of the check. -/
def c2z' : Cfg 1 :=
  { c2z with workers := Function.update c2z.workers 0
               { c2z.workers 0 with pc := PC.releasing, done := true } }

/-- One-seller configuration holding the lock at the check with 3 tickets
left. -/
def c2p : Cfg 1 := ⟨3, some 0, fun _ => ⟨PC.checking, false, 0⟩⟩

/-- Configuration c2p after the nonzero branch of the check. -/
def c2p' : Cfg 1 :=
  { c2p with workers := Function.update c2p.workers 0
               { c2p.workers 0 with pc := PC.decrementing } }

/-- One-seller configuration holding the lock about to decrement 3. -/
def c2d : Cfg 1 := ⟨3, some 0, fun _ => ⟨PC.decrementing, false, 0⟩⟩

/-- Configuration c2d after the decrement. -/
def c2d' : Cfg 1 :=
  { c2d with numTickets := c2d.numTickets - 1,
             workers := Function.update c2d.workers 0
               { c2d.workers 0 with pc := PC.releasing,
                                    sold := (c2d.workers 0).sold + 1 } }

end Sell

namespace RW

/-- Auxiliary: the semaphore-sum invariant is preserved by every complete
iteration and holds initially. -/
theorem chReachable_sum {s : ChState} (h : ChReachable s) :
    s.emptyCount + s.fullCount = NUM_TOTAL_BUFFERS ∧
      s.puts ≤ DATA_LENGTH ∧ s.takes ≤ DATA_LENGTH := by
  induction h with
  | refl => exact ⟨rfl, by simp [chInit], by simp [chInit]⟩
  | tail _ hstep ih =>
      rcases hstep with hstep | hstep
      all_goals
        rcases ih with ⟨hsum, hp, ht⟩
        refine ⟨by dsimp only; omega, by dsimp only; omega, by dsimp only; omega⟩

/-- Auxiliary: the strictly alternating schedule reaches the state with n
puts and n takes done for every n up to DATA_LENGTH. -/
theorem chReachable_alt : ∀ n, n ≤ DATA_LENGTH →
    ChReachable ⟨NUM_TOTAL_BUFFERS, 0, n, n⟩ := by
  intro n
  induction n with
  | zero => intro _; exact Relation.ReflTransGen.refl
  | succ n ih =>
      intro hn
      have h1 : ChReachable ⟨NUM_TOTAL_BUFFERS, 0, n, n⟩ := ih (by omega)
      have h2 : ChStep ⟨NUM_TOTAL_BUFFERS, 0, n, n⟩
          ⟨NUM_TOTAL_BUFFERS - 1, 1, n + 1, n⟩ :=
        ChStep.put _ (by dsimp only; omega) (by simp [NUM_TOTAL_BUFFERS])
      have h3 : ChStep ⟨NUM_TOTAL_BUFFERS - 1, 1, n + 1, n⟩
          ⟨NUM_TOTAL_BUFFERS, 0, n + 1, n + 1⟩ := by
        have := ChStep.take ⟨NUM_TOTAL_BUFFERS - 1, 1, n + 1, n⟩
          (by dsimp only; omega) (by simp [NUM_TOTAL_BUFFERS])
        simpa [NUM_TOTAL_BUFFERS] using this
      exact ((h1.tail h2).tail h3)

/-- Claim C3: the channel is constructed with emptyCount equal to the
capacity (5) and fullCount equal to 0, and at every quiescent point
emptyCount + fullCount equals the capacity, because every complete Put
acquires one empty permit and releases one full permit and every complete
Take acquires one full permit and releases one empty permit. -/
theorem permit_invariant :
    NUM_TOTAL_BUFFERS = 5 ∧
    chInit.emptyCount = NUM_TOTAL_BUFFERS ∧ chInit.fullCount = 0 ∧
    ∀ s, ChReachable s → s.emptyCount + s.fullCount = NUM_TOTAL_BUFFERS :=
  ⟨rfl, rfl, rfl, fun _ h => (chReachable_sum h).1⟩

/-- Witness for permit_invariant, evaluated at the initial state. -/
theorem permit_invariant_witness :
    chInit.emptyCount + chInit.fullCount = NUM_TOTAL_BUFFERS :=
  permit_invariant.2.2.2 chInit Relation.ReflTransGen.refl

/-- Claim C6: the producer performs exactly N = 20 Put iterations and the
consumer exactly N = 20 Take iterations, never more (no reachable state
exceeds 20 of either, and a state with both at 20 allows no further step)
and never fewer (a state with both at 20 is reached). -/
theorem exact_iterations :
    DATA_LENGTH = 20 ∧
    (∀ s, ChReachable s → s.puts ≤ 20 ∧ s.takes ≤ 20) ∧
    (∃ s, ChReachable s ∧ s.puts = 20 ∧ s.takes = 20) ∧
    (∀ s t, ChReachable s → s.puts = 20 → s.takes = 20 → ¬ ChStep s t) := by
  refine ⟨rfl, ?_, ?_, ?_⟩
  · intro s h
    have h2 := chReachable_sum h
    exact ⟨by simpa [DATA_LENGTH] using h2.2.1, by simpa [DATA_LENGTH] using h2.2.2⟩
  · exact ⟨⟨NUM_TOTAL_BUFFERS, 0, 20, 20⟩,
      chReachable_alt 20 (by norm_num [DATA_LENGTH]), rfl, rfl⟩
  · intro s t _ hp ht hstep
    cases hstep with
    | put hw _ => simp [DATA_LENGTH] at hw; omega
    | take hr _ => simp [DATA_LENGTH] at hr; omega

/-- Witness for exact_iterations: the bound at the initial state, and no
step is possible from the completed state. -/
theorem exact_iterations_witness :
    chInit.puts ≤ 20 ∧
    ¬ ChStep ⟨NUM_TOTAL_BUFFERS, 0, 20, 20⟩ ⟨NUM_TOTAL_BUFFERS - 1, 1, 21, 20⟩ :=
  ⟨(exact_iterations.2.1 chInit Relation.ReflTransGen.refl).1,
   exact_iterations.2.2.2 _ _ (chReachable_alt 20 (by norm_num [DATA_LENGTH])) rfl rfl⟩

/-- Claim C9: every value produced by PrepareData is an uppercase ASCII
letter between 65 and 89, that is between the codes of the characters A
and Y, being 65 plus a non-negative random_r output taken modulo 25. -/
theorem prepareData_range (result : Int) (h : 0 ≤ result) :
    prepareData result = 65 + result.tmod 25 ∧
    ('A'.toNat : Int) ≤ prepareData result ∧
    prepareData result ≤ ('Y'.toNat : Int) := by
  have h1 : 0 ≤ result.tmod 25 := Int.tmod_nonneg _ h
  have h2 : result.tmod 25 < 25 := Int.tmod_lt_of_pos _ (by norm_num)
  have hA : ('A'.toNat : Int) = 65 := by decide
  have hY : ('Y'.toNat : Int) = 89 := by decide
  refine ⟨rfl, ?_, ?_⟩ <;> simp only [prepareData, hA, hY] <;> omega

/-- Witness for prepareData_range at the concrete random output 100. -/
theorem prepareData_range_witness :
    (0 : Int) ≤ 100 ∧ ('A'.toNat : Int) ≤ prepareData 100 ∧
      prepareData 100 ≤ ('Y'.toNat : Int) :=
  ⟨by norm_num, (prepareData_range 100 (by norm_num)).2⟩

/-- Claim C1 fails on the code: writePt is never initialised, so the write
cursor need not start at slot 0.  With indeterminate initial cursor 1 (and
indeterminate initial buffer contents, here '.'), the legal strictly
alternating schedule makes the Reader observe the sequence with a stale
cell first and every produced value shifted, not the produced sequence;
with initial cursor 0 (the intent the spec records) the same schedule
delivers FIFO order. -/
theorem fifo_violated :
    altRun (List.replicate NUM_TOTAL_BUFFERS '.') 0 0 ['A', 'B', 'C']
        = ['A', 'B', 'C'] ∧
    altRun (List.replicate NUM_TOTAL_BUFFERS '.') 1 0 ['A', 'B', 'C']
        = ['.', 'A', 'B'] ∧
    altRun (List.replicate NUM_TOTAL_BUFFERS '.') 1 0 ['A', 'B', 'C']
        ≠ ['A', 'B', 'C'] :=
  ⟨by decide, by decide, by decide⟩

/-- Claim C10 fails on the code: the Reader indices are always in range,
and so are the Writer indices when the indeterminate initial cursor happens
to be 0, but the uninitialised writePt makes the very first write use an
arbitrary int index: initial value 5 (or -3) is used as is, outside the
5-element buffer. -/
theorem buffer_index_out_of_range :
    (∀ i ∈ readerIndices, i < NUM_TOTAL_BUFFERS) ∧
    (∀ i ∈ writerIndices 0, 0 ≤ i ∧ i < (NUM_TOTAL_BUFFERS : Int)) ∧
    (writerIndices 5).head? = some 5 ∧
    (writerIndices (-3)).head? = some (-3) ∧
    ¬ (∀ i ∈ writerIndices 5, 0 ≤ i ∧ i < (NUM_TOTAL_BUFFERS : Int)) :=
  ⟨by decide, by decide, by decide, by decide, by decide⟩

end RW

namespace Sell

/-- Auxiliary: how the sold total changes when one seller is updated. -/
theorem sum_sold_update {W : Nat} (w : Fin W → Worker) (i : Fin W) (x : Worker) :
    (Finset.univ.sum fun j => ((Function.update w i x) j).sold)
      = (Finset.univ.sum fun j => (w j).sold) - (w i).sold + x.sold := by
  have hfun : (fun j => ((Function.update w i x) j).sold)
      = Function.update (fun j => (w j).sold) i x.sold := by
    funext j
    by_cases hj : j = i
    · subst hj; simp
    · simp [Function.update_noteq hj]
  rw [hfun, Finset.sum_update_of_mem (Finset.mem_univ i)]
  have herase : (Finset.univ : Finset (Fin W)) \ {i} = Finset.univ.erase i :=
    (Finset.erase_eq Finset.univ i).symm
  rw [herase]
  have h2 := Finset.add_sum_erase Finset.univ (fun j => (w j).sold) (Finset.mem_univ i)
  linarith

/-- Auxiliary: the invariant holds in the initial configuration. -/
theorem inv_init (T W : Nat) : Inv T (sellInit T W) := by
  refine ⟨?_, ?_, ?_, ?_, ?_, ?_, ?_⟩
  · exact Int.ofNat_nonneg T
  · simp [sellInit, soldSum]
  · intro i; simp [sellInit]
  · intro i hcs; rcases hcs with h | h | h <;> simp [sellInit] at h
  · intro i h; simp [sellInit] at h
  · intro i h; simp [sellInit] at h
  · intro i h; simp [sellInit] at h

/-- Auxiliary: the invariant is preserved by every micro-step. -/
theorem inv_step {W T : Nat} {e : Event W} {c c' : Cfg W}
    (h : Inv T c) (hs : Step e c c') : Inv T c' := by
  cases hs with
  | acquire c i hpc hdone hlock =>
      refine ⟨h.nonneg, ?_, ?_, ?_, ?_, ?_, ?_⟩
      · show c.numTickets + soldSum _ = (T : Int)
        have := h.conserve
        simp only [soldSum] at this ⊢
        rw [sum_sold_update]
        dsimp only
        linarith
      · intro j
        by_cases hj : j = i
        · subst hj; simpa using h.sold_nonneg j
        · simpa [Function.update_noteq hj] using h.sold_nonneg j
      · intro j hcs
        by_cases hj : j = i
        · subst hj; rfl
        · exfalso
          simp only [Function.update_noteq hj] at hcs
          have hcl := h.mutex j hcs
          rw [hlock] at hcl
          exact Option.noConfusion hcl
      · intro j hj
        by_cases hji : j = i
        · subst hji; simp at hj
        · simp only [Function.update_noteq hji] at hj
          exact h.decr_pos j hj
      · intro j hj
        by_cases hji : j = i
        · subst hji
          simp only [Function.update_same] at hj
          exact h.done_zero j (by simpa using hj)
        · simp only [Function.update_noteq hji] at hj
          exact h.done_zero j hj
      · intro j hj
        by_cases hji : j = i
        · subst hji; simp at hj
        · simp only [Function.update_noteq hji] at hj ⊢
          exact h.exited_done j hj
  | checkZero c i hpc hlock hz =>
      refine ⟨h.nonneg, ?_, ?_, ?_, ?_, ?_, ?_⟩
      · show c.numTickets + soldSum _ = (T : Int)
        have := h.conserve
        simp only [soldSum] at this ⊢
        rw [sum_sold_update]
        dsimp only
        linarith
      · intro j
        by_cases hj : j = i
        · subst hj; simpa using h.sold_nonneg j
        · simpa [Function.update_noteq hj] using h.sold_nonneg j
      · intro j hcs
        by_cases hj : j = i
        · subst hj; exact hlock
        · simp only [Function.update_noteq hj] at hcs
          exact h.mutex j hcs
      · intro j hj
        by_cases hji : j = i
        · subst hji; simp at hj
        · simp only [Function.update_noteq hji] at hj
          exact h.decr_pos j hj
      · intro j hj
        exact hz
      · intro j hj
        by_cases hji : j = i
        · subst hji; simp
        · simp only [Function.update_noteq hji] at hj ⊢
          exact h.exited_done j hj
  | checkPos c i hpc hlock hz =>
      have hpos : 0 < c.numTickets := lt_of_le_of_ne h.nonneg (Ne.symm hz)
      refine ⟨h.nonneg, ?_, ?_, ?_, ?_, ?_, ?_⟩
      · show c.numTickets + soldSum _ = (T : Int)
        have := h.conserve
        simp only [soldSum] at this ⊢
        rw [sum_sold_update]
        dsimp only
        linarith
      · intro j
        by_cases hj : j = i
        · subst hj; simpa using h.sold_nonneg j
        · simpa [Function.update_noteq hj] using h.sold_nonneg j
      · intro j hcs
        by_cases hj : j = i
        · subst hj; exact hlock
        · simp only [Function.update_noteq hj] at hcs
          exact h.mutex j hcs
      · intro j hj
        exact hpos
      · intro j hj
        by_cases hji : j = i
        · subst hji
          simp only [Function.update_same] at hj
          exact h.done_zero j (by simpa using hj)
        · simp only [Function.update_noteq hji] at hj
          exact h.done_zero j hj
      · intro j hj
        by_cases hji : j = i
        · subst hji; simp at hj
        · simp only [Function.update_noteq hji] at hj ⊢
          exact h.exited_done j hj
  | decr c i hpc hlock =>
      have hpos : 0 < c.numTickets := h.decr_pos i hpc
      refine ⟨?_, ?_, ?_, ?_, ?_, ?_, ?_⟩
      · show 0 ≤ c.numTickets - 1
        omega
      · show c.numTickets - 1 + soldSum _ = (T : Int)
        have := h.conserve
        simp only [soldSum] at this ⊢
        rw [sum_sold_update]
        dsimp only
        linarith
      · intro j
        by_cases hj : j = i
        · subst hj
          have := h.sold_nonneg j
          simp only [Function.update_same]
          omega
        · simpa [Function.update_noteq hj] using h.sold_nonneg j
      · intro j hcs
        by_cases hj : j = i
        · subst hj; exact hlock
        · simp only [Function.update_noteq hj] at hcs
          exact h.mutex j hcs
      · intro j hj
        exfalso
        by_cases hji : j = i
        · subst hji; simp at hj
        · simp only [Function.update_noteq hji] at hj
          have := h.mutex j (Or.inr (Or.inl hj))
          rw [hlock] at this
          injection this with hv
          exact hji hv.symm
      · intro j hj
        exfalso
        have hz : c.numTickets = 0 := by
          by_cases hji : j = i
          · subst hji
            simp only [Function.update_same] at hj
            exact h.done_zero j (by simpa using hj)
          · simp only [Function.update_noteq hji] at hj
            exact h.done_zero j hj
        omega
      · intro j hj
        by_cases hji : j = i
        · subst hji; simp at hj
        · simp only [Function.update_noteq hji] at hj ⊢
          exact h.exited_done j hj
  | release c i hpc hlock =>
      refine ⟨h.nonneg, ?_, ?_, ?_, ?_, ?_, ?_⟩
      · show c.numTickets + soldSum _ = (T : Int)
        have := h.conserve
        simp only [soldSum] at this ⊢
        rw [sum_sold_update]
        dsimp only
        linarith
      · intro j
        by_cases hj : j = i
        · subst hj; simpa using h.sold_nonneg j
        · simpa [Function.update_noteq hj] using h.sold_nonneg j
      · intro j hcs
        exfalso
        by_cases hj : j = i
        · subst hj
          rcases hcs with hx | hx | hx <;>
            · simp only [Function.update_same] at hx
              split at hx <;> simp_all
        · simp only [Function.update_noteq hj] at hcs
          have := h.mutex j hcs
          rw [hlock] at this
          injection this with hv
          exact hj hv.symm
      · intro j hj
        by_cases hji : j = i
        · subst hji
          simp only [Function.update_same] at hj
          split at hj <;> simp_all
        · simp only [Function.update_noteq hji] at hj
          exact h.decr_pos j hj
      · intro j hj
        by_cases hji : j = i
        · subst hji
          simp only [Function.update_same] at hj
          exact h.done_zero j (by simpa using hj)
        · simp only [Function.update_noteq hji] at hj
          exact h.done_zero j hj
      · intro j hj
        by_cases hji : j = i
        · subst hji
          simp only [Function.update_same] at hj ⊢
          split at hj
          · assumption
          · simp_all
        · simp only [Function.update_noteq hji] at hj ⊢
          exact h.exited_done j hj

/-- Auxiliary: the invariant holds in every reachable configuration. -/
theorem inv_reachable {W T : Nat} {c : Cfg W} (h : SellReachable T W c) :
    Inv T c := by
  induction h with
  | refl => exact inv_init T W
  | tail _ hstep ih =>
      rcases hstep with ⟨e, he⟩
      exact inv_step ih he

/-- Auxiliary: acquire step with an explicit target configuration. -/
theorem tstep_acquire {W : Nat} {c c' : Cfg W} (i : Fin W)
    (hpc : (c.workers i).pc = PC.outside) (hdone : (c.workers i).done = false)
    (hlock : c.lock = none)
    (h : c' = { c with lock := some i,
                       workers := Function.update c.workers i
                         { c.workers i with pc := PC.checking } }) :
    TStep c c' :=
  h ▸ ⟨Event.acquire i, Step.acquire c i hpc hdone hlock⟩

/-- Auxiliary: checkZero step with an explicit target configuration. -/
theorem tstep_checkZero {W : Nat} {c c' : Cfg W} (i : Fin W)
    (hpc : (c.workers i).pc = PC.checking) (hlock : c.lock = some i)
    (hz : c.numTickets = 0)
    (h : c' = { c with workers := Function.update c.workers i
                         { c.workers i with pc := PC.releasing,
                                            done := true } }) :
    TStep c c' :=
  h ▸ ⟨Event.checkZero i, Step.checkZero c i hpc hlock hz⟩

/-- Auxiliary: checkPos step with an explicit target configuration. -/
theorem tstep_checkPos {W : Nat} {c c' : Cfg W} (i : Fin W)
    (hpc : (c.workers i).pc = PC.checking) (hlock : c.lock = some i)
    (hz : c.numTickets ≠ 0)
    (h : c' = { c with workers := Function.update c.workers i
                         { c.workers i with pc := PC.decrementing } }) :
    TStep c c' :=
  h ▸ ⟨Event.checkPos i, Step.checkPos c i hpc hlock hz⟩

/-- Auxiliary: decr step with an explicit target configuration. -/
theorem tstep_decr {W : Nat} {c c' : Cfg W} (i : Fin W)
    (hpc : (c.workers i).pc = PC.decrementing) (hlock : c.lock = some i)
    (h : c' = { c with numTickets := c.numTickets - 1,
                       workers := Function.update c.workers i
                         { c.workers i with pc := PC.releasing,
                                            sold := (c.workers i).sold + 1 } }) :
    TStep c c' :=
  h ▸ ⟨Event.decr i, Step.decr c i hpc hlock⟩

/-- Auxiliary: release step with an explicit target configuration. -/
theorem tstep_release {W : Nat} {c c' : Cfg W} (i : Fin W)
    (hpc : (c.workers i).pc = PC.releasing) (hlock : c.lock = some i)
    (h : c' = { c with lock := none,
                       workers := Function.update c.workers i
                         { c.workers i with
                             pc := if (c.workers i).done then PC.exited
                                   else PC.outside } }) :
    TStep c c' :=
  h ▸ ⟨Event.release i, Step.release c i hpc hlock⟩

/-- Auxiliary: one complete successful loop iteration of seller i (acquire,
see a nonzero count, decrement, release) as a four micro-step run. -/
theorem oneSale {W : Nat} (i : Fin W) (n : Int) (hn : n ≠ 0) (s : Fin W → Int) :
    Relation.ReflTransGen TStep (allOut n s)
      (allOut (n - 1) (Function.update s i (s i + 1))) := by
  have t1 : TStep (allOut n s)
      ⟨n, some i, Function.update (allOut n s).workers i
        ⟨PC.checking, false, s i⟩⟩ :=
    tstep_acquire i rfl rfl rfl rfl
  have t2 : TStep
      (⟨n, some i, Function.update (allOut n s).workers i
        ⟨PC.checking, false, s i⟩⟩ : Cfg W)
      ⟨n, some i, Function.update (allOut n s).workers i
        ⟨PC.decrementing, false, s i⟩⟩ :=
    tstep_checkPos i (by simp) rfl hn
      (by simp [Function.update_idem])
  have t3 : TStep
      (⟨n, some i, Function.update (allOut n s).workers i
        ⟨PC.decrementing, false, s i⟩⟩ : Cfg W)
      ⟨n - 1, some i, Function.update (allOut n s).workers i
        ⟨PC.releasing, false, s i + 1⟩⟩ :=
    tstep_decr i (by simp) rfl
      (by simp [Function.update_idem])
  have t4 : TStep
      (⟨n - 1, some i, Function.update (allOut n s).workers i
        ⟨PC.releasing, false, s i + 1⟩⟩ : Cfg W)
      (allOut (n - 1) (Function.update s i (s i + 1))) := by
    refine tstep_release i (by simp) rfl ?_
    simp only [Function.update_idem]
    refine congrArg (Cfg.mk (n - 1) none) ?_
    funext j
    by_cases hj : j = i
    · subst hj; simp [allOut]
    · simp [allOut, Function.update_noteq hj]
  exact Relation.ReflTransGen.head t1
    (Relation.ReflTransGen.head t2
      (Relation.ReflTransGen.head t3 (Relation.ReflTransGen.single t4)))

/-- Auxiliary: seller i alone can sell all t remaining tickets. -/
theorem drain {W : Nat} (i : Fin W) :
    ∀ (t : Nat) (s : Fin W → Int),
      Relation.ReflTransGen TStep (allOut (t : Int) s)
        (allOut 0 (Function.update s i (s i + (t : Int)))) := by
  intro t
  induction t with
  | zero =>
      intro s
      simpa [Function.update_eq_self] using
        (Relation.ReflTransGen.refl :
          Relation.ReflTransGen TStep (allOut ((0 : Nat) : Int) s)
            (allOut ((0 : Nat) : Int) s))
  | succ t ih =>
      intro s
      have h1 := oneSale i ((t + 1 : Nat) : Int)
        (by exact_mod_cast Nat.succ_ne_zero t) s
      have e1 : ((t + 1 : Nat) : Int) - 1 = ((t : Nat) : Int) := by
        push_cast; ring
      rw [e1] at h1
      have h2 := ih (Function.update s i (s i + 1))
      have e2 : Function.update (Function.update s i (s i + 1)) i
          (Function.update s i (s i + 1) i + (t : Int))
          = Function.update s i (s i + ((t + 1 : Nat) : Int)) := by
        rw [Function.update_same, Function.update_idem]
        refine congrArg (Function.update s i) ?_
        push_cast; ring
      rw [e2] at h2
      exact h1.trans h2

/-- Auxiliary: with no tickets left, seller k can run one last iteration,
observe zero, set done and leave its loop. -/
theorem exit_bump {W : Nat} (s : Fin W → Int) (k : Nat) (hk : k < W) :
    Relation.ReflTransGen TStep (exitUpTo s k) (exitUpTo s (k + 1)) := by
  have hw : (exitUpTo s k).workers ⟨k, hk⟩ = ⟨PC.outside, false, s ⟨k, hk⟩⟩ := by
    simp [exitUpTo]
  have t1 : TStep (exitUpTo s k)
      ⟨0, some ⟨k, hk⟩, Function.update (exitUpTo s k).workers ⟨k, hk⟩
        ⟨PC.checking, false, s ⟨k, hk⟩⟩⟩ := by
    refine tstep_acquire ⟨k, hk⟩ (by rw [hw]) (by rw [hw]) rfl ?_
    rw [hw]
    rfl
  have t2 : TStep
      (⟨0, some ⟨k, hk⟩, Function.update (exitUpTo s k).workers ⟨k, hk⟩
        ⟨PC.checking, false, s ⟨k, hk⟩⟩⟩ : Cfg W)
      ⟨0, some ⟨k, hk⟩, Function.update (exitUpTo s k).workers ⟨k, hk⟩
        ⟨PC.releasing, true, s ⟨k, hk⟩⟩⟩ :=
    tstep_checkZero ⟨k, hk⟩ (by simp) rfl rfl
      (by simp [Function.update_idem])
  have t3 : TStep
      (⟨0, some ⟨k, hk⟩, Function.update (exitUpTo s k).workers ⟨k, hk⟩
        ⟨PC.releasing, true, s ⟨k, hk⟩⟩⟩ : Cfg W)
      (exitUpTo s (k + 1)) := by
    refine tstep_release ⟨k, hk⟩ (by simp) rfl ?_
    simp only [Function.update_idem]
    refine congrArg (Cfg.mk 0 none) ?_
    funext j
    by_cases hj : j = (⟨k, hk⟩ : Fin W)
    · subst hj
      simp [exitUpTo]
    · have hjv : j.val ≠ k := by
        intro hh; exact hj (Fin.ext hh)
      simp only [exitUpTo, Function.update_noteq hj]
      by_cases hv : j.val < k
      · simp [hv, Nat.lt_succ_of_lt hv]
      · have hv2 : ¬ j.val < k + 1 := by omega
        simp [hv, hv2]
  exact Relation.ReflTransGen.head t1
    (Relation.ReflTransGen.head t2 (Relation.ReflTransGen.single t3))

/-- Auxiliary: once no tickets remain, all sellers terminate one by one. -/
theorem exit_phase {W : Nat} (s : Fin W → Int) :
    ∀ d k, k + d = W →
      Relation.ReflTransGen TStep (exitUpTo s k) (exitUpTo s W) := by
  intro d
  induction d with
  | zero =>
      intro k hk
      rw [Nat.add_zero] at hk
      subst hk
      exact Relation.ReflTransGen.refl
  | succ d ih =>
      intro k hk
      exact (exit_bump s k (by omega)).trans (ih (k + 1) (by omega))

/-- Auxiliary: from the all-idle zero-ticket configuration, the run in
which every seller observes exhaustion and exits is reachable. -/
theorem exit_all {W : Nat} (s : Fin W → Int) :
    Relation.ReflTransGen TStep (allOut 0 s) (allExit s) := by
  have h0 : exitUpTo s 0 = allOut 0 s := by
    simp [exitUpTo, allOut]
  have hW : exitUpTo s W = allExit s := by
    simp only [exitUpTo, allExit]
    refine congrArg (Cfg.mk 0 none) ?_
    funext j
    simp [j.isLt]
  rw [← h0, ← hW]
  exact exit_phase s W 0 (by omega)

/-- Claim C2: TryDecrement, the body of a seller's critical section, runs
with ticketsLock held throughout: on a zero count it leaves numTickets
unchanged, records no sale and sets done (failure, after which the seller
leaves its loop); on a nonzero count it proceeds to the decrement, which
lowers numTickets by exactly one and records the sale (success, the new
remaining value being the updated numTickets). -/
theorem tryDecrement_spec {W : Nat} (a a' b b' d d' : Cfg W) (i : Fin W)
    (hza : Step (Event.checkZero i) a a')
    (hpb : Step (Event.checkPos i) b b')
    (hdd : Step (Event.decr i) d d') :
    (a.lock = some i ∧ a.numTickets = 0 ∧ a'.numTickets = a.numTickets ∧
      (a'.workers i).done = true ∧ (a'.workers i).sold = (a.workers i).sold) ∧
    (b.lock = some i ∧ b.numTickets ≠ 0 ∧ b'.numTickets = b.numTickets ∧
      (b'.workers i).pc = PC.decrementing) ∧
    (d.lock = some i ∧ d'.numTickets = d.numTickets - 1 ∧
      (d'.workers i).sold = (d.workers i).sold + 1 ∧
      (d.workers i).pc = PC.decrementing) := by
  refine ⟨?_, ?_, ?_⟩
  · cases hza with
    | checkZero c i hpc hlock hz =>
        exact ⟨hlock, hz, rfl, by simp, by simp⟩
  · cases hpb with
    | checkPos c i hpc hlock hz =>
        exact ⟨hlock, hz, rfl, by simp⟩
  · cases hdd with
    | decr c i hpc hlock =>
        exact ⟨hlock, rfl, by simp, hpc⟩

/-- Witness for tryDecrement_spec at the three concrete one-seller
configurations above. -/
theorem tryDecrement_spec_witness :
    (c2z.lock = some 0 ∧ c2z.numTickets = 0 ∧ c2z'.numTickets = c2z.numTickets ∧
      (c2z'.workers 0).done = true ∧ (c2z'.workers 0).sold = (c2z.workers 0).sold) ∧
    (c2p.lock = some 0 ∧ c2p.numTickets ≠ 0 ∧ c2p'.numTickets = c2p.numTickets ∧
      (c2p'.workers 0).pc = PC.decrementing) ∧
    (c2d.lock = some 0 ∧ c2d'.numTickets = c2d.numTickets - 1 ∧
      (c2d'.workers 0).sold = (c2d.workers 0).sold + 1 ∧
      (c2d.workers 0).pc = PC.decrementing) :=
  tryDecrement_spec c2z c2z' c2p c2p' c2d c2d' 0
    (Step.checkZero c2z 0 rfl rfl rfl)
    (Step.checkPos c2p 0 rfl rfl (by decide))
    (Step.decr c2d 0 rfl rfl)

/-- Claim C4: in every reachable configuration numTickets is between 0 and
the initial total, the sum of all successful decrements equals the initial
total minus the current count, and every possible further micro-step keeps
numTickets unchanged or lowers it (monotonically non-increasing). -/
theorem counter_invariants {W : Nat} (T : Nat) (c : Cfg W)
    (h : SellReachable T W c) :
    0 ≤ c.numTickets ∧ c.numTickets ≤ (T : Int) ∧
    soldSum c = (T : Int) - c.numTickets ∧
    (∀ e c', Step e c c' → c'.numTickets ≤ c.numTickets) := by
  have hinv := inv_reachable h
  have hsold : 0 ≤ soldSum c :=
    Finset.sum_nonneg fun i _ => hinv.sold_nonneg i
  have hcons := hinv.conserve
  refine ⟨hinv.nonneg, by linarith, by linarith, ?_⟩
  intro e c' hs
  cases hs <;> dsimp only <;> omega

/-- Witness for counter_invariants at the initial configuration with 35
tickets and 4 sellers. -/
theorem counter_invariants_witness :
    0 ≤ (sellInit 35 4).numTickets ∧
      soldSum (sellInit 35 4) = ((35 : Nat) : Int) - (sellInit 35 4).numTickets := by
  have h := counter_invariants 35 (sellInit 35 4) Relation.ReflTransGen.refl
  exact ⟨h.1, h.2.2.1⟩

/-- Claim C8: under any interleaving of the seller threads, at most one
seller is anywhere inside the check-and-decrement critical section at a
time, numTickets is never negative, and a seller poised to decrement
always sees a positive count — so two sellers can never jointly drive the
count past zero. -/
theorem critical_section_atomic {W : Nat} (T : Nat) (c : Cfg W)
    (h : SellReachable T W c) :
    (∀ i j, inCS (c.workers i) → inCS (c.workers j) → i = j) ∧
    0 ≤ c.numTickets ∧
    (∀ i, (c.workers i).pc = PC.decrementing → 0 < c.numTickets) := by
  have hinv := inv_reachable h
  refine ⟨?_, hinv.nonneg, hinv.decr_pos⟩
  intro i j hi hj
  have h1 := hinv.mutex i hi
  have h2 := hinv.mutex j hj
  rw [h1] at h2
  exact Option.some.inj h2

/-- Witness for critical_section_atomic at the initial configuration. -/
theorem critical_section_atomic_witness :
    0 ≤ (sellInit 35 4).numTickets :=
  (critical_section_atomic 35 (sellInit 35 4) Relation.ReflTransGen.refl).2.1

/-- Claim C5: with NUM_TICKETS = 35 and NUM_SELLERS = 4, in any run after
which every seller has left its loop, the sold counts total exactly 35,
no individual sold count is negative, and the remaining count is 0. -/
theorem all_sold (c : Cfg NUM_SELLERS)
    (h : SellReachable NUM_TICKETS NUM_SELLERS c)
    (hdone : ∀ i, (c.workers i).pc = PC.exited) :
    soldSum c = 35 ∧ (∀ i, 0 ≤ (c.workers i).sold) ∧ c.numTickets = 0 := by
  have hinv := inv_reachable h
  have hz : c.numTickets = 0 :=
    hinv.done_zero i0 (hinv.exited_done i0 (hdone i0))
  refine ⟨?_, hinv.sold_nonneg, hz⟩
  have hcons := hinv.conserve
  rw [hz] at hcons
  have : ((NUM_TICKETS : Nat) : Int) = 35 := by norm_num [NUM_TICKETS]
  linarith

/-- Witness for all_sold: the terminated configuration in which seller 0
sold all 35 tickets is reachable, and there the totals are as claimed. -/
theorem all_sold_witness :
    soldSum (allExit soldAll) = 35 ∧ (allExit soldAll).numTickets = 0 := by
  have hdr := drain i0 NUM_TICKETS (fun _ => 0)
  have e : ((0 : Int) + ((NUM_TICKETS : Nat) : Int)) = (35 : Int) := by
    norm_num [NUM_TICKETS]
  rw [e] at hdr
  have hreach : SellReachable NUM_TICKETS NUM_SELLERS (allExit soldAll) :=
    hdr.trans (exit_all soldAll)
  have h := all_sold (allExit soldAll) hreach (fun i => rfl)
  exact ⟨h.1, h.2.2⟩

/-- Claim C7: initialised with zero tickets, every reachable configuration
still has zero tickets and zero recorded sales for every seller, no seller
is ever past the zero check (at the decrement), and the run in which every
seller observes exhaustion on its first attempt and terminates with zero
sales is reachable. -/
theorem zero_tickets {W : Nat} (c : Cfg W) (h : SellReachable 0 W c) :
    c.numTickets = 0 ∧
    (∀ i, (c.workers i).sold = 0 ∧ (c.workers i).pc ≠ PC.decrementing) ∧
    (∃ cend, SellReachable 0 W cend ∧
      ∀ i, (cend.workers i).pc = PC.exited ∧ (cend.workers i).sold = 0) := by
  have hinv := inv_reachable h
  have hcons := hinv.conserve
  have hc0 : ((0 : Nat) : Int) = 0 := by norm_num
  rw [hc0] at hcons
  have hsold : 0 ≤ soldSum c :=
    Finset.sum_nonneg fun i _ => hinv.sold_nonneg i
  have hz : c.numTickets = 0 := by linarith [hinv.nonneg]
  have hsum0 : soldSum c = 0 := by linarith
  refine ⟨hz, ?_, ?_⟩
  · intro i
    constructor
    · simp only [soldSum] at hsum0
      exact (Finset.sum_eq_zero_iff_of_nonneg
        fun j _ => hinv.sold_nonneg j).mp hsum0 i (Finset.mem_univ i)
    · intro hdec
      have := hinv.decr_pos i hdec
      omega
  · refine ⟨allExit (fun _ => 0), ?_, fun i => ⟨rfl, rfl⟩⟩
    exact exit_all (fun _ => 0)

/-- Witness for zero_tickets at the initial zero-ticket configuration with
4 sellers. -/
theorem zero_tickets_witness :
    (sellInit 0 4).numTickets = 0 ∧ ((sellInit 0 4).workers 0).sold = 0 := by
  have h := zero_tickets (sellInit 0 4) Relation.ReflTransGen.refl
  exact ⟨h.1, (h.2.1 0).1⟩

end Sell
